import Mathlib

/-!
Shallow embedding of `crates/polars-parquet/src/arrow/read/deserialize/binary/utils.rs`:
the `Binary<O>` builder (offsets + values accumulator) and the `BinaryIter`
length-prefix-framed byte cursor, together with proofs of the specified
properties.

Modelling conventions:
- Rust byte slices become `List Nat` (each entry a byte value).
- `Vec<u8>` becomes a `Vec` structure carrying its data and its reserved
  capacity.  Capacity follows Rust's amortized growth rule: when a grow is
  required, the new capacity is `max 8 (max (2*cap) need)` (RawVec's
  `grow_amortized` with `min_non_zero_cap = 8` for byte-sized elements);
  `Vec::reserve additional` is a no-op when `len + additional ≤ cap`.
- A Rust panic (from `unwrap`, `assert!`, `assert_eq!`, `unimplemented!` or a
  panicking `split_at`) is modelled by an operation returning `none`
  (respectively the `NextRes.panik` outcome for the iterator): the panicking
  call produces no resulting state.
- Machine integers become `Nat`; the parametric offset width `O: Offset`
  (i32 or i64 in the source) becomes an explicit `maxOffset : Nat` bound fixed
  at construction (`2^31 - 1` for 32-bit offsets).
-/

set_option maxRecDepth 100000

set_option maxHeartbeats 1000000

namespace BinUtils

/-- Amortized capacity growth for a Rust `Vec`: no change when `need ≤ cap`,
otherwise `max 8 (max (2*cap) need)`. -/
def growCap (cap need : Nat) : Nat :=
  if need ≤ cap then cap else max 8 (max (2 * cap) need)

/-- Model of Rust's `Vec<u8>`: the stored bytes plus the reserved capacity. -/
structure Vec where
  data : List Nat
  cap : Nat
deriving DecidableEq, Repr

/-- Model of `Vec::with_capacity`. -/
def Vec.with_capacity (n : Nat) : Vec := ⟨[], n⟩

/-- Model of `Vec::extend` from a byte slice: appends the bytes, growing the
capacity amortizedly when the spare capacity does not suffice. -/
def Vec.extend (v : Vec) (xs : List Nat) : Vec :=
  ⟨v.data ++ xs, growCap v.cap (v.data.length + xs.length)⟩

/-- Model of `Vec::reserve`: ensures capacity for `additional` more elements
beyond the current length; data is unchanged. -/
def Vec.reserve (v : Vec) (additional : Nat) : Vec :=
  ⟨v.data, growCap v.cap (v.data.length + additional)⟩

/-- Modelled from the spec: the `Offsets<O>` sequence type of the `arrow`
crate (`arrow::offset::Offsets`), whose source is not part of the material.
Per the spec it is "an ordered sequence of `N+1` non-negative integers ...
where element 0 is always 0", owned by the builder, with a capacity measured
in anticipated entries and a fixed offset width chosen at instantiation
(`maxOffset` is the largest representable cumulative length). -/
structure Offsets where
  offs : List Nat
  cap : Nat
  maxOffset : Nat
deriving DecidableEq, Repr

/-- Modelled from the spec: `Offsets::with_capacity` "pre-sizes the offsets
sequence for `capacity_hint` entries"; the sequence starts as the single
element 0. -/
def Offsets.with_capacity (maxOffset capacity : Nat) : Offsets :=
  ⟨[0], capacity, maxOffset⟩

/-- Modelled from the spec: `Offsets::len_proxy`, the count of values, i.e.
"length of sequence − 1". -/
def Offsets.len_proxy (o : Offsets) : Nat := o.offs.length - 1

/-- Modelled from the spec: `Offsets::capacity`, the number of anticipated
entries the sequence is pre-sized for. -/
def Offsets.capacity (o : Offsets) : Nat := o.cap

/-- Modelled from the spec: `Offsets::last`, the last element of the (never
empty) sequence, i.e. the cumulative byte length so far. -/
def Offsets.last (o : Offsets) : Nat := o.offs.getLastD 0

/-- Modelled from the spec: `Offsets::try_push length` records the new
cumulative offset `last + length`.  It "fails with an offset-overflow
condition if the new cumulative length cannot be represented in the
configured offset width"; the failure is the `none` result, to be handled by
the caller. -/
def Offsets.try_push (o : Offsets) (length : Nat) : Option Offsets :=
  if o.maxOffset < o.last + length then none
  else some ⟨o.offs ++ [o.last + length], growCap o.cap (o.len_proxy + 1), o.maxOffset⟩

/-- Modelled from the spec: `Offsets::extend_constant additional` appends
`additional` "zero-length entries (no bytes copied) by repeating the last
offset value". -/
def Offsets.extend_constant (o : Offsets) (additional : Nat) : Offsets :=
  ⟨o.offs ++ List.replicate additional o.last,
   growCap o.cap (o.len_proxy + additional), o.maxOffset⟩

/-- Modelled from the spec: `Offsets::reserve` pre-expands the sequence's
capacity for `additional` more entries. -/
def Offsets.reserve (o : Offsets) (additional : Nat) : Offsets :=
  ⟨o.offs, growCap o.cap (o.len_proxy + additional), o.maxOffset⟩

/-- The `Binary<O>` builder: an offsets sequence plus a flat values buffer. -/
structure Binary where
  offsets : Offsets
  values : Vec
deriving DecidableEq, Repr

/-- `Binary::with_capacity`: pre-sizes the offsets for `capacity` entries and
the values buffer at `capacity.min(100) * 24` bytes. -/
def Binary.with_capacity (maxOffset capacity : Nat) : Binary :=
  ⟨Offsets.with_capacity maxOffset capacity, Vec.with_capacity (min capacity 100 * 24)⟩

/-- The growth-heuristic recalibration performed at the start of `Binary::push`
when exactly 100 values are present and the offsets capacity exceeds 100:
estimate bytes per row as `values.len() / 100 + 1`, project the total bytes as
`bytes_per_row * offsets.capacity()` and, if the projection exceeds the
values capacity, reserve the shortfall. -/
def Binary.recalibrate (b : Binary) : Binary :=
  if b.offsets.len_proxy = 100 ∧ 100 < b.offsets.capacity then
    let bytes_per_row := b.values.data.length / 100 + 1
    let bytes_estimate := bytes_per_row * b.offsets.capacity
    if b.values.cap < bytes_estimate then
      { b with values := b.values.reserve (bytes_estimate - b.values.cap) }
    else b
  else b

/-- `Binary::push`: possibly recalibrate, extend the values buffer with `v`,
then `offsets.try_push(v.len()).unwrap()` — the `unwrap` turns an
offset-overflow into a panic, modelled as the `none` result. -/
def Binary.push (b : Binary) (v : List Nat) : Option Binary :=
  let b := b.recalibrate
  let values := b.values.extend v
  match b.offsets.try_push v.length with
  | none => none
  | some o => some { offsets := o, values := values }

/-- `Binary::extend_constant`: delegates to `Offsets::extend_constant`. -/
def Binary.extend_constant (b : Binary) (additional : Nat) : Binary :=
  { b with offsets := b.offsets.extend_constant additional }

/-- `Binary::len`: `offsets.len_proxy()`. -/
def Binary.len (b : Binary) : Nat := b.offsets.len_proxy

/-- `<Binary as Pushable>::reserve`: estimates the average value length as
`values.len() / max(offsets.last(), 1)` and pre-expands both buffers. -/
def Binary.reserve (b : Binary) (additional : Nat) : Binary :=
  let avg_len := b.values.data.length / max b.offsets.last 1
  { b with
    values := b.values.reserve (additional * avg_len),
    offsets := b.offsets.reserve additional }

/-- `<Binary as Pushable>::push_null`: pushes the empty slice. -/
def Binary.push_null (b : Binary) : Option Binary := b.push []

/-- `<Binary as Pushable>::extend_constant(additional, value)` (called
`extend_constant_value` in the spec): `assert_eq!(value.len(), 0)` panics
(modelled as `none`) on a non-empty value, otherwise behaves as
`Binary::extend_constant`. -/
def Binary.extend_constant_value (b : Binary) (additional : Nat) (value : List Nat) :
    Option Binary :=
  if value.length = 0 then some (b.extend_constant additional) else none

/-- `<Binary as Pushable>::extend_null_constant`: delegates to
`Binary::extend_constant`. -/
def Binary.extend_null_constant (b : Binary) (additional : Nat) : Binary :=
  b.extend_constant additional

/-- `<Binary as Pushable>::freeze` is `unimplemented!()`: calling it always
panics, modelled as the `none` result. -/
def Binary.freeze (_ : Binary) : Option Unit := none

/-- The `BinaryIter` framed byte cursor: a borrowed view of raw bytes plus the
remaining-count upper bound. -/
structure BinaryIter where
  values : List Nat
  max_num_values : Nat
deriving DecidableEq, Repr

/-- `BinaryIter::new`. -/
def BinaryIter.new (values : List Nat) (max_num_values : Nat) : BinaryIter :=
  ⟨values, max_num_values⟩

/-- `BinaryIter::len_when_not_nullable`: the current remaining-count field. -/
def BinaryIter.len_when_not_nullable (it : BinaryIter) : Nat := it.max_num_values

/-- Outcome of one `BinaryIter::next` call: a panic, exhaustion (`None`), or a
yielded slice together with the advanced iterator. -/
inductive NextRes where
  | panik : NextRes
  | done : NextRes
  | yield : List Nat → BinaryIter → NextRes
deriving DecidableEq, Repr

/-- Little-endian `u32::from_le_bytes` on a 4-byte list. -/
def fromLe4 : List Nat → Nat
  | [b0, b1, b2, b3] => b0 + 256 * b1 + 65536 * b2 + 16777216 * b3
  | _ => 0

/-- `BinaryIter::next`: with zero remaining count, `assert!(values.is_empty())`
then `None`; otherwise `split_at(4)` (panics when fewer than 4 bytes remain),
decode the little-endian length, `split_at(length)` (panics when fewer bytes
remain), yield the slice and advance. -/
def BinaryIter.next (it : BinaryIter) : NextRes :=
  if it.max_num_values = 0 then
    if it.values.isEmpty then NextRes.done else NextRes.panik
  else if it.values.length < 4 then NextRes.panik
  else
    let length := fromLe4 (it.values.take 4)
    let remaining := it.values.drop 4
    if remaining.length < length then NextRes.panik
    else NextRes.yield (remaining.take length)
      ⟨remaining.drop length, it.max_num_values - 1⟩

/-- `Iterator::size_hint` for `BinaryIter`: `(0, Some(max_num_values))`. -/
def BinaryIter.size_hint (it : BinaryIter) : Nat × Option Nat :=
  (0, some it.max_num_values)

/-- The 4-byte little-endian encoding of a length (`u32::to_le_bytes`). -/
def leBytes4 (n : Nat) : List Nat :=
  [n % 256, n / 256 % 256, n / 65536 % 256, n / 16777216 % 256]

/-- The length-prefix framing of a sequence of byte strings: each record is
the 4-byte little-endian length followed by the value bytes. -/
def serialize (l : List (List Nat)) : List Nat :=
  (l.map (fun v => leBytes4 v.length ++ v)).flatten

/-- Run `next` up to `fuel` times, collecting the yielded values; `none` when
a call panics. -/
def collect : Nat → BinaryIter → Option (List (List Nat))
  | 0, _ => some []
  | fuel + 1, it =>
    match it.next with
    | NextRes.panik => none
    | NextRes.done => some []
    | NextRes.yield v it' => (collect fuel it').map (fun l => v :: l)

/-- Push each value of a list in order; `none` as soon as a push panics. -/
def push_list (b : Binary) : List (List Nat) → Option Binary
  | [] => some b
  | v :: rest =>
    match b.push v with
    | none => none
    | some b1 => push_list b1 rest

/-- A builder operation, for statements quantifying over arbitrary operation
sequences. -/
inductive Op where
  | push : List Nat → Op
  | push_null : Op
  | extend_constant : Nat → Op
  | extend_constant_value : Nat → List Nat → Op
  | extend_null_constant : Nat → Op
  | reserve : Nat → Op
deriving DecidableEq, Repr

/-- Apply one operation to a builder; `none` models a panic. -/
def applyOp (b : Binary) : Op → Option Binary
  | Op.push v => b.push v
  | Op.push_null => b.push_null
  | Op.extend_constant k => some (b.extend_constant k)
  | Op.extend_constant_value k v => b.extend_constant_value k v
  | Op.extend_null_constant k => some (b.extend_null_constant k)
  | Op.reserve k => some (b.reserve k)

/-- Apply a sequence of operations left to right. -/
def applyOps (b : Binary) : List Op → Option Binary
  | [] => some b
  | op :: rest =>
    match applyOp b op with
    | none => none
    | some b1 => applyOps b1 rest

/-- The values an operation appends to the builder (a panicking operation
appears here with the values it would have appended; such runs produce no
final state anyway). -/
def opValues : Op → List (List Nat)
  | Op.push v => [v]
  | Op.push_null => [[]]
  | Op.extend_constant k => List.replicate k []
  | Op.extend_constant_value k _ => List.replicate k []
  | Op.extend_null_constant k => List.replicate k []
  | Op.reserve _ => []

/-- The values appended by a sequence of operations. -/
def opsValues (ops : List Op) : List (List Nat) :=
  (ops.map opValues).flatten

/-- The cumulative offsets recorded after `start` for a list of appended
values: element `i` is `start` plus the total length of the first `i+1`
values. -/
def cumOffsets (start : Nat) : List (List Nat) → List Nat
  | [] => []
  | v :: rest => (start + v.length) :: cumOffsets (start + v.length) rest

end BinUtils

namespace BinUtils

theorem recalibrate_offsets (b : Binary) : b.recalibrate.offsets = b.offsets := by
  simp only [Binary.recalibrate]
  split
  · split <;> rfl
  · rfl

theorem recalibrate_values_data (b : Binary) : b.recalibrate.values.data = b.values.data := by
  simp only [Binary.recalibrate]
  split
  · split <;> rfl
  · rfl

theorem push_eq (b : Binary) (v : List Nat) :
    b.push v =
      if b.offsets.maxOffset < b.offsets.last + v.length then none
      else some
        { offsets := ⟨b.offsets.offs ++ [b.offsets.last + v.length],
            growCap b.offsets.cap (b.offsets.len_proxy + 1), b.offsets.maxOffset⟩,
          values := b.recalibrate.values.extend v } := by
  simp only [Binary.push, Offsets.try_push, recalibrate_offsets]
  by_cases h : b.offsets.maxOffset < b.offsets.last + v.length
  · rw [if_pos h, if_pos h]
  · rw [if_neg h, if_neg h]

theorem push_succeeds (b : Binary) (v : List Nat)
    (h : b.offsets.last + v.length ≤ b.offsets.maxOffset) :
    ∃ b', b.push v = some b' := by
  rw [push_eq, if_neg (Nat.not_lt.mpr h)]
  exact ⟨_, rfl⟩

theorem push_some (b : Binary) (v : List Nat) (b' : Binary) (h : b.push v = some b') :
    b'.offsets.offs = b.offsets.offs ++ [b.offsets.last + v.length] ∧
    b'.values.data = b.values.data ++ v ∧
    b'.offsets.maxOffset = b.offsets.maxOffset ∧
    b.offsets.last + v.length ≤ b.offsets.maxOffset := by
  rw [push_eq] at h
  split at h
  · exact absurd h (by simp)
  · next hcond =>
    cases h
    refine ⟨rfl, ?_, rfl, Nat.not_lt.mp hcond⟩
    show (b.recalibrate.values.extend v).data = b.values.data ++ v
    unfold Vec.extend
    rw [recalibrate_values_data]

theorem getLastD_append_replicate (o : List Nat) (k s d : Nat) :
    (o ++ List.replicate k s).getLastD d = if k = 0 then o.getLastD d else s := by
  cases k with
  | zero => simp
  | succ m =>
    rw [List.replicate_succ', ← List.append_assoc, List.getLastD_concat]
    simp

theorem cumOffsets_append (xs ys : List (List Nat)) (s : Nat) :
    cumOffsets s (xs ++ ys) =
      cumOffsets s xs ++ cumOffsets (s + (xs.map List.length).sum) ys := by
  induction xs generalizing s with
  | nil => simp [cumOffsets]
  | cons v rest ih => simp [cumOffsets, ih, Nat.add_assoc]

theorem cumOffsets_replicate_nil (k s : Nat) :
    cumOffsets s (List.replicate k []) = List.replicate k s := by
  induction k with
  | zero => rfl
  | succ m ih => simp [List.replicate_succ, cumOffsets, ih]

theorem cumOffsets_getLastD (vs : List (List Nat)) (s : Nat) :
    (cumOffsets s vs).getLastD s = s + (vs.map List.length).sum := by
  induction vs generalizing s with
  | nil => simp [cumOffsets]
  | cons v rest ih =>
    simp only [cumOffsets, List.getLastD_cons]
    rw [ih]
    simp [Nat.add_assoc]

theorem cumOffsets_cons_getLastD (vs : List (List Nat)) (s d : Nat) :
    (s :: cumOffsets s vs).getLastD d = s + (vs.map List.length).sum := by
  rw [List.getLastD_cons]
  exact cumOffsets_getLastD vs s

theorem cumOffsets_getD_succ (vs : List (List Nat)) (s : Nat) :
    ∀ i, i < vs.length →
      (s :: cumOffsets s vs).getD (i + 1) 0 =
        (s :: cumOffsets s vs).getD i 0 + (vs.getD i []).length := by
  induction vs generalizing s with
  | nil => intro i h; exact absurd h (by simp)
  | cons v rest ih =>
    intro i h
    cases i with
    | zero => simp [cumOffsets]
    | succ j =>
      simp only [cumOffsets, List.getD_cons_succ]
      exact ih (s + v.length) j (by simpa using h)

theorem cumOffsets_chain' (vs : List (List Nat)) (s : Nat) :
    List.Chain' (fun a b => a ≤ b) (s :: cumOffsets s vs) := by
  induction vs generalizing s with
  | nil => simp [cumOffsets]
  | cons v rest ih =>
    simp only [cumOffsets]
    exact List.chain'_cons.mpr ⟨Nat.le_add_right s v.length, ih (s + v.length)⟩

theorem extract_flatten (l : List (List Nat)) :
    ∀ (start : Nat) (full : List Nat), full.drop start = l.flatten →
    ∀ i, i < l.length →
      (full.drop ((start :: cumOffsets start l).getD i 0)).take
          ((start :: cumOffsets start l).getD (i + 1) 0 -
            (start :: cumOffsets start l).getD i 0) =
        l.getD i [] := by
  induction l with
  | nil => intro start full h i hi; exact absurd hi (by simp)
  | cons v rest ih =>
    intro start full h i hi
    cases i with
    | zero =>
      simp only [cumOffsets, List.getD_cons_zero, List.getD_cons_succ]
      have h1 : start + v.length - start = v.length := by omega
      rw [h1, h, List.flatten_cons]
      exact List.take_left' rfl
    | succ j =>
      simp only [cumOffsets, List.getD_cons_succ]
      have h2 : full.drop (start + v.length) = rest.flatten := by
        rw [← List.drop_drop, h, List.flatten_cons, List.drop_left']
        rfl
      exact ih (start + v.length) full h2 j (by simpa using hi)

theorem push_list_some (l : List (List Nat)) :
    ∀ b : Binary, b.offsets.last + (l.map List.length).sum ≤ b.offsets.maxOffset →
    ∃ b', push_list b l = some b' ∧
      b'.offsets.offs = b.offsets.offs ++ cumOffsets b.offsets.last l ∧
      b'.values.data = b.values.data ++ l.flatten := by
  induction l with
  | nil => intro b h; exact ⟨b, rfl, by simp [cumOffsets], by simp⟩
  | cons v rest ih =>
    intro b h
    have hsum : v.length + (rest.map List.length).sum = ((v :: rest).map List.length).sum := by
      simp
    have hv : b.offsets.last + v.length ≤ b.offsets.maxOffset := by omega
    obtain ⟨b1, hb1⟩ := push_succeeds b v hv
    obtain ⟨hoffs, hdata, hmax, _⟩ := push_some b v b1 hb1
    have hl1 : b1.offsets.last = b.offsets.last + v.length := by
      show b1.offsets.offs.getLastD 0 = _
      rw [hoffs, List.getLastD_concat]
    have hrest : b1.offsets.last + (rest.map List.length).sum ≤ b1.offsets.maxOffset := by
      rw [hl1, hmax]; omega
    obtain ⟨b', hb', ho', hd'⟩ := ih b1 hrest
    refine ⟨b', ?_, ?_, ?_⟩
    · simp [push_list, hb1, hb']
    · rw [ho', hoffs, hl1]
      simp [cumOffsets, List.append_assoc]
    · rw [hd', hdata]
      simp [List.append_assoc]

theorem leBytes4_length (n : Nat) : (leBytes4 n).length = 4 := rfl

theorem fromLe4_leBytes4 (n : Nat) (h : n < 4294967296) : fromLe4 (leBytes4 n) = n := by
  simp only [leBytes4, fromLe4]
  omega

theorem serialize_cons (v : List Nat) (rest : List (List Nat)) :
    serialize (v :: rest) = leBytes4 v.length ++ (v ++ serialize rest) := by
  simp [serialize, List.append_assoc]

theorem next_framed (v s : List Nat) (k : Nat) (h : v.length < 4294967296) :
    BinaryIter.next ⟨leBytes4 v.length ++ (v ++ s), k + 1⟩ =
      NextRes.yield v ⟨s, k⟩ := by
  have hlen : (leBytes4 v.length ++ (v ++ s)).length = 4 + (v.length + s.length) := by
    simp [leBytes4]
    omega
  have htake : (leBytes4 v.length ++ (v ++ s)).take 4 = leBytes4 v.length :=
    List.take_left' (leBytes4_length v.length)
  have hdrop : (leBytes4 v.length ++ (v ++ s)).drop 4 = v ++ s :=
    List.drop_left' (leBytes4_length v.length)
  simp only [BinaryIter.next]
  rw [if_neg (by omega : ¬(k + 1 = 0)), if_neg (by omega : ¬(leBytes4 v.length ++ (v ++ s)).length < 4)]
  rw [htake, hdrop, fromLe4_leBytes4 v.length h]
  rw [if_neg (by simp : ¬(v ++ s).length < v.length)]
  rw [List.take_left, List.drop_left]
  rfl

theorem collect_succ (fuel : Nat) (it : BinaryIter) :
    collect (fuel + 1) it =
      match it.next with
      | NextRes.panik => none
      | NextRes.done => some []
      | NextRes.yield v it' => (collect fuel it').map (fun l => v :: l) := rfl

theorem collect_serialize (l : List (List Nat)) (h : ∀ v ∈ l, v.length < 4294967296) :
    collect (l.length + 1) (BinaryIter.new (serialize l) l.length) = some l := by
  induction l with
  | nil => rfl
  | cons v rest ih =>
    have hv : v.length < 4294967296 := h v (List.mem_cons_self v rest)
    have hrest : ∀ w ∈ rest, w.length < 4294967296 :=
      fun w hw => h w (List.mem_cons_of_mem v hw)
    show collect (rest.length + 1 + 1) ⟨serialize (v :: rest), rest.length + 1⟩ = _
    rw [serialize_cons, collect_succ, next_framed v (serialize rest) rest.length hv]
    show (collect (rest.length + 1) ⟨serialize rest, rest.length⟩).map (fun l => v :: l) =
      some (v :: rest)
    have ih' := ih hrest
    simp only [BinaryIter.new] at ih'
    rw [ih']
    rfl

theorem flatten_replicate_nil (k : Nat) :
    (List.replicate k ([] : List Nat)).flatten = [] := by
  induction k with
  | zero => rfl
  | succ m ih => simp [List.replicate_succ, ih]

theorem sum_map_length_replicate_nil (k : Nat) :
    ((List.replicate k ([] : List Nat)).map List.length).sum = 0 := by
  induction k with
  | zero => rfl
  | succ m ih => simp [List.replicate_succ, ih]

theorem last_extend_constant (b : Binary) (k : Nat) :
    (b.extend_constant k).offsets.last = b.offsets.last := by
  show (b.offsets.offs ++ List.replicate k b.offsets.last).getLastD 0 = b.offsets.last
  rw [getLastD_append_replicate]
  split
  · rfl
  · rfl

theorem opsValues_cons (op : Op) (rest : List Op) :
    opsValues (op :: rest) = opValues op ++ opsValues rest := by
  simp [opsValues]

theorem extend_constant_like_shape (b : Binary) (k : Nat) :
    (b.extend_constant k).offsets.offs =
        b.offsets.offs ++ cumOffsets b.offsets.last (List.replicate k []) ∧
    (b.extend_constant k).values.data =
        b.values.data ++ (List.replicate k ([] : List Nat)).flatten ∧
    (b.extend_constant k).offsets.last =
        b.offsets.last + ((List.replicate k ([] : List Nat)).map List.length).sum ∧
    (b.extend_constant k).offsets.maxOffset = b.offsets.maxOffset := by
  refine ⟨?_, ?_, ?_, rfl⟩
  · rw [cumOffsets_replicate_nil]
    rfl
  · rw [flatten_replicate_nil, List.append_nil]
    rfl
  · rw [sum_map_length_replicate_nil, last_extend_constant, Nat.add_zero]

theorem applyOp_shape (b b1 : Binary) (op : Op) (h : applyOp b op = some b1) :
    b1.offsets.offs = b.offsets.offs ++ cumOffsets b.offsets.last (opValues op) ∧
    b1.values.data = b.values.data ++ (opValues op).flatten ∧
    b1.offsets.last = b.offsets.last + ((opValues op).map List.length).sum ∧
    b1.offsets.maxOffset = b.offsets.maxOffset := by
  cases op with
  | push v =>
    obtain ⟨ho, hd, hm, _⟩ := push_some b v b1 h
    have hl : b1.offsets.last = b.offsets.last + v.length := by
      show b1.offsets.offs.getLastD 0 = _
      rw [ho, List.getLastD_concat]
    exact ⟨by rw [ho]; simp [opValues, cumOffsets], by rw [hd]; simp [opValues],
      by rw [hl]; simp [opValues], hm⟩
  | push_null =>
    obtain ⟨ho, hd, hm, _⟩ := push_some b [] b1 h
    have hl : b1.offsets.last = b.offsets.last + ([] : List Nat).length := by
      show b1.offsets.offs.getLastD 0 = _
      rw [ho, List.getLastD_concat]
    exact ⟨by rw [ho]; simp [opValues, cumOffsets], by rw [hd]; simp [opValues],
      by rw [hl]; simp [opValues], hm⟩
  | extend_constant k =>
    cases h
    exact extend_constant_like_shape b k
  | extend_constant_value k v =>
    have h' : applyOp b (Op.extend_constant_value k v) =
        (if v.length = 0 then some (b.extend_constant k) else none) := rfl
    rw [h'] at h
    split at h
    · cases h
      exact extend_constant_like_shape b k
    · exact absurd h (by simp)
  | extend_null_constant k =>
    cases h
    exact extend_constant_like_shape b k
  | reserve k =>
    cases h
    refine ⟨?_, ?_, ?_, rfl⟩ <;>
      simp [Binary.reserve, Offsets.reserve, Vec.reserve, Offsets.last, cumOffsets, opValues]

theorem applyOps_shape (ops : List Op) :
    ∀ b b' : Binary, applyOps b ops = some b' →
      b'.offsets.offs = b.offsets.offs ++ cumOffsets b.offsets.last (opsValues ops) ∧
      b'.values.data = b.values.data ++ (opsValues ops).flatten ∧
      b'.offsets.last = b.offsets.last + ((opsValues ops).map List.length).sum := by
  induction ops with
  | nil =>
    intro b b' h
    cases h
    exact ⟨by simp [opsValues, cumOffsets], by simp [opsValues], by simp [opsValues]⟩
  | cons op rest ih =>
    intro b b' h
    rw [show applyOps b (op :: rest) =
        (match applyOp b op with
         | none => none
         | some b1 => applyOps b1 rest) from rfl] at h
    cases hop : applyOp b op with
    | none => rw [hop] at h; exact absurd h (by simp)
    | some b1 =>
      rw [hop] at h
      obtain ⟨ho1, hd1, hl1, _⟩ := applyOp_shape b b1 op hop
      obtain ⟨ho, hd, hl⟩ := ih b1 b' h
      refine ⟨?_, ?_, ?_⟩
      · rw [ho, ho1, hl1, opsValues_cons, cumOffsets_append, List.append_assoc]
      · rw [hd, hd1, opsValues_cons]
        simp [List.append_assoc]
      · rw [hl, hl1, opsValues_cons]
        simp [Nat.add_assoc]

/-- C1: for every finite sequence of byte strings, iterating a `BinaryIter`
over the 4-byte little-endian length-prefixed serialization of the sequence
with `max_num_values` equal to the sequence length yields exactly the original
byte strings in order (and then end-of-sequence), and pushing the sequence
into a `Binary` builder produces an offsets/values pair from which each value
is recovered as `values[offsets[i]..offsets[i+1]]`.  The hypotheses are
exactly representability: each length fits the 32-bit length prefix and the
total length fits the configured offset width. -/
theorem C1_round_trip (maxOff cap : Nat) (l : List (List Nat))
    (h32 : ∀ v ∈ l, v.length < 4294967296)
    (hmax : (l.map List.length).sum ≤ maxOff) :
    collect (l.length + 1) (BinaryIter.new (serialize l) l.length) = some l ∧
    ∃ b, push_list (Binary.with_capacity maxOff cap) l = some b ∧
      ∀ i, i < l.length →
        (b.values.data.drop (b.offsets.offs.getD i 0)).take
            (b.offsets.offs.getD (i + 1) 0 - b.offsets.offs.getD i 0) =
          l.getD i [] := by
  refine ⟨collect_serialize l h32, ?_⟩
  have h0 : (Binary.with_capacity maxOff cap).offsets.last +
      (l.map List.length).sum ≤ (Binary.with_capacity maxOff cap).offsets.maxOffset := by
    show (0 : Nat) + (l.map List.length).sum ≤ maxOff
    omega
  obtain ⟨b, hb, ho, hd⟩ := push_list_some l (Binary.with_capacity maxOff cap) h0
  refine ⟨b, hb, ?_⟩
  intro i hi
  have ho' : b.offsets.offs = 0 :: cumOffsets 0 l := by
    rw [ho]
    rfl
  have hd' : b.values.data = l.flatten := by
    rw [hd]
    rfl
  rw [ho', hd']
  exact extract_flatten l 0 l.flatten (by simp) i hi

/-- Witness for C1 at the concrete sequence `[[7], []]` with a 32-bit-like
offset bound 100 and capacity hint 5. -/
theorem C1_round_trip_witness :
    (∀ v ∈ [[7], ([] : List Nat)], v.length < 4294967296) ∧
    (([[7], ([] : List Nat)].map List.length).sum ≤ 100) ∧
    (collect ([[7], ([] : List Nat)].length + 1)
        (BinaryIter.new (serialize [[7], []]) [[7], ([] : List Nat)].length) =
          some [[7], []] ∧
      ∃ b, push_list (Binary.with_capacity 100 5) [[7], []] = some b ∧
        ∀ i, i < [[7], ([] : List Nat)].length →
          (b.values.data.drop (b.offsets.offs.getD i 0)).take
              (b.offsets.offs.getD (i + 1) 0 - b.offsets.offs.getD i 0) =
            [[7], ([] : List Nat)].getD i []) :=
  ⟨by decide, by decide, C1_round_trip 100 5 [[7], []] (by decide) (by decide)⟩

/-- C2: after any sequence of builder operations starting from a freshly
constructed builder that completes without panicking, the offsets sequence
starts at 0, each consecutive difference equals the byte length of the
corresponding appended value, the sequence is non-decreasing, the last offset
equals the length of the values buffer, and `len` equals the offsets count
minus 1. -/
theorem C2_offsets_invariant (maxOff cap : Nat) (ops : List Op) (b' : Binary)
    (h : applyOps (Binary.with_capacity maxOff cap) ops = some b') :
    b'.offsets.offs.getD 0 0 = 0 ∧
    (∀ i, i < (opsValues ops).length →
      b'.offsets.offs.getD (i + 1) 0 - b'.offsets.offs.getD i 0 =
        ((opsValues ops).getD i []).length) ∧
    List.Chain' (fun a b => a ≤ b) b'.offsets.offs ∧
    b'.offsets.offs.getLastD 0 = b'.values.data.length ∧
    b'.len = b'.offsets.offs.length - 1 := by
  obtain ⟨ho, hd, _⟩ := applyOps_shape ops (Binary.with_capacity maxOff cap) b' h
  have hoffs : b'.offsets.offs = 0 :: cumOffsets 0 (opsValues ops) := by
    rw [ho]
    rfl
  have hdata : b'.values.data = (opsValues ops).flatten := by
    rw [hd]
    rfl
  refine ⟨?_, ?_, ?_, ?_, rfl⟩
  · rw [hoffs]
    rfl
  · intro i hi
    rw [hoffs, cumOffsets_getD_succ (opsValues ops) 0 i hi]
    omega
  · rw [hoffs]
    exact cumOffsets_chain' (opsValues ops) 0
  · rw [hoffs, hdata, cumOffsets_cons_getLastD, List.length_flatten]
    omega

/-- Final builder state for the C2 witness run. -/
def c2_b : Binary := ⟨⟨[0, 2], 3, 1000⟩, ⟨[1, 2], 72⟩⟩

/-- Witness for C2 at the concrete run pushing `[1, 2]` into a builder with
offset bound 1000 and capacity hint 3. -/
theorem C2_offsets_invariant_witness :
    applyOps (Binary.with_capacity 1000 3) [Op.push [1, 2]] = some c2_b ∧
    (c2_b.offsets.offs.getD 0 0 = 0 ∧
     (∀ i, i < (opsValues [Op.push [1, 2]]).length →
       c2_b.offsets.offs.getD (i + 1) 0 - c2_b.offsets.offs.getD i 0 =
         ((opsValues [Op.push [1, 2]]).getD i []).length) ∧
     List.Chain' (fun a b => a ≤ b) c2_b.offsets.offs ∧
     c2_b.offsets.offs.getLastD 0 = c2_b.values.data.length ∧
     c2_b.len = c2_b.offsets.offs.length - 1) :=
  ⟨by decide, C2_offsets_invariant 1000 3 [Op.push [1, 2]] c2_b (by decide)⟩

/-- C3 counterexample: with 32-bit offsets (`maxOffset = 2^31 - 1`), pushing a
value whose length exceeds the representable range makes `push` panic (the
`none` result models the `.unwrap()` panic): no recoverable error value is
ever returned to the caller — `Binary::push` returns `()` in the source and
its only failure mode is the panic. -/
theorem C3_overflow_panics_cex :
    Binary.push (Binary.with_capacity (2 ^ 31 - 1) 0) (List.replicate (2 ^ 31) 0) = none := by
  have h : (Binary.with_capacity (2 ^ 31 - 1) 0).offsets.maxOffset <
      (Binary.with_capacity (2 ^ 31 - 1) 0).offsets.last +
        (List.replicate (2 ^ 31) (0 : Nat)).length := by
    rw [List.length_replicate]
    norm_num [Binary.with_capacity, Offsets.with_capacity, Offsets.last]
  rw [push_eq, if_pos h]

/-- C3 amended: the overflow check is always performed and is never silently
wrapped or truncated — when the new cumulative length exceeds the configured
offset width, `push` fails loudly with a panic (the `try_push` error is
`.unwrap()`ped, modelled as `none`), and any successful push records exactly
the un-wrapped cumulative offset, which is within the configured width. -/
theorem C3_overflow_panics_never_wraps (b : Binary) (v : List Nat) :
    (b.offsets.maxOffset < b.offsets.last + v.length → b.push v = none) ∧
    (∀ b', b.push v = some b' →
      b'.offsets.last = b.offsets.last + v.length ∧
      b'.offsets.last ≤ b'.offsets.maxOffset ∧
      b'.offsets.maxOffset = b.offsets.maxOffset) := by
  constructor
  · intro h
    rw [push_eq, if_pos h]
  · intro b' h
    obtain ⟨ho, _, hm, hle⟩ := push_some b v b' h
    have hl : b'.offsets.last = b.offsets.last + v.length := by
      show b'.offsets.offs.getLastD 0 = _
      rw [ho, List.getLastD_concat]
    exact ⟨hl, by rw [hl, hm]; exact hle, hm⟩

/-- Builder state after the successful push of the C3 witness. -/
def c3_b : Binary := ⟨⟨[0, 1], 1, 100⟩, ⟨[9], 24⟩⟩

/-- Witness for C3 amended: a concrete overflowing push panics (offset bound
2, value of length 3) and a concrete successful push records the exact
cumulative offset. -/
theorem C3_overflow_panics_never_wraps_witness :
    Binary.push (Binary.with_capacity 2 0) [1, 2, 3] = none ∧
    (c3_b.offsets.last = (Binary.with_capacity 100 1).offsets.last +
        ([9] : List Nat).length ∧
      c3_b.offsets.last ≤ c3_b.offsets.maxOffset ∧
      c3_b.offsets.maxOffset = (Binary.with_capacity 100 1).offsets.maxOffset) :=
  ⟨(C3_overflow_panics_never_wraps (Binary.with_capacity 2 0) [1, 2, 3]).1 (by decide),
   (C3_overflow_panics_never_wraps (Binary.with_capacity 100 1) [9]).2 c3_b (by decide)⟩

/-- C4 counterexample: on a buffer whose declared length prefix (5) exceeds
the remaining bytes (0), `next` panics (the `split_at(length)` call; modelled
as `NextRes.panik`): the corrupt-encoding condition is not reported as a
recoverable error value to the caller. -/
theorem C4_corrupt_panics_cex :
    BinaryIter.next ⟨[5, 0, 0, 0], 1⟩ = NextRes.panik := by decide

/-- C4 amended: with a positive remaining count, corrupt input (fewer than 4
bytes for the length prefix, or fewer bytes than the decoded length for the
value) makes `next` fail loudly via bounds-checked `split_at` panics — never
a recoverable error value — and any yielded slice lies entirely within the
buffer (no out-of-bounds read): the yielded slice and the remaining bytes
exactly partition the buffer after the 4-byte prefix. -/
theorem C4_corrupt_panics_no_oob (buf : List Nat) (n : Nat) (h : 0 < n) :
    (buf.length < 4 → BinaryIter.next ⟨buf, n⟩ = NextRes.panik) ∧
    (4 ≤ buf.length → buf.length - 4 < fromLe4 (buf.take 4) →
      BinaryIter.next ⟨buf, n⟩ = NextRes.panik) ∧
    (∀ v it', BinaryIter.next ⟨buf, n⟩ = NextRes.yield v it' →
      buf.drop 4 = v ++ it'.values) := by
  have hn : ¬(n = 0) := by omega
  refine ⟨?_, ?_, ?_⟩
  · intro h4
    simp only [BinaryIter.next]
    rw [if_neg hn, if_pos h4]
  · intro h4 hlen
    simp only [BinaryIter.next]
    rw [if_neg hn, if_neg (Nat.not_lt.mpr h4),
      if_pos (by rw [List.length_drop]; exact hlen)]
  · intro v it' hy
    simp only [BinaryIter.next] at hy
    rw [if_neg hn] at hy
    by_cases h4 : buf.length < 4
    · rw [if_pos h4] at hy
      exact absurd hy (by simp)
    · rw [if_neg h4] at hy
      by_cases h5 : (buf.drop 4).length < fromLe4 (buf.take 4)
      · rw [if_pos h5] at hy
        exact absurd hy (by simp)
      · rw [if_neg h5] at hy
        obtain ⟨hv, hit⟩ := NextRes.yield.inj hy
        rw [← hv, ← hit, List.take_append_drop]

/-- Witness for C4 amended at the corrupt buffer `[5,0,0,0]` with remaining
count 1: the declared value length 5 exceeds the 0 remaining bytes. -/
theorem C4_corrupt_panics_no_oob_witness :
    (([5, 0, 0, 0] : List Nat).length < 4 →
      BinaryIter.next ⟨[5, 0, 0, 0], 1⟩ = NextRes.panik) ∧
    (4 ≤ ([5, 0, 0, 0] : List Nat).length →
      ([5, 0, 0, 0] : List Nat).length - 4 < fromLe4 (([5, 0, 0, 0] : List Nat).take 4) →
      BinaryIter.next ⟨[5, 0, 0, 0], 1⟩ = NextRes.panik) ∧
    (∀ v it', BinaryIter.next ⟨[5, 0, 0, 0], 1⟩ = NextRes.yield v it' →
      ([5, 0, 0, 0] : List Nat).drop 4 = v ++ it'.values) :=
  C4_corrupt_panics_no_oob [5, 0, 0, 0] 1 (by decide)

/-- Reserved values-buffer capacity after constructing with the given
capacity hint (32-bit offsets) and pushing `n` values of 10 bytes each. -/
def pushed_cap (hint n : Nat) : Option Nat :=
  (push_list (Binary.with_capacity (2 ^ 31 - 1) hint)
      (List.replicate n (List.replicate 10 0))).map (fun b => b.values.cap)

/-- C5 counterexample: with `capacity_hint = 1000`, immediately after the
100th push of a 10-byte value the values capacity is still the initial 2400
bytes (= min(1000,100) * 24), not at least 11000: the recalibration condition
`len_proxy() == 100` only holds at the start of the 101st push. -/
theorem C5_growth_heuristic_cex :
    pushed_cap 1000 100 = some 2400 ∧ ¬(11000 ≤ 2400) := by
  refine ⟨by decide, by decide⟩

/-- C5 amended: the recalibration fires at the start of the push performed
when exactly 100 values are already present (the 101st push), and only when
the offsets capacity exceeds 100.  With `capacity_hint = 1000` and 10-byte
values it computes `bytes_estimate = (1000/100 + 1) * 1000 = 11000` and calls
`values.reserve(11000 - 2400)`, which per `Vec::reserve` semantics leaves
capacity `max(2*2400, 1000 + 8600) = 9600` (not 11000) after the 101st push;
the capacity is unchanged after the 100th push (2400) and after the 102nd
push (9600, recalibration fires exactly once), and with `capacity_hint = 100`
(not exceeding 100) no recalibration ever fires (capacity stays 2400). -/
theorem C5_growth_heuristic_amended :
    pushed_cap 1000 100 = some 2400 ∧
    pushed_cap 1000 101 = some 9600 ∧
    pushed_cap 1000 102 = some 9600 ∧
    pushed_cap 100 101 = some 2400 := by
  refine ⟨by decide, by decide, by decide, by decide⟩

/-- C6: `extend_constant k` increases `len` by exactly `k`, leaves the values
buffer byte-for-byte unchanged, and appends `k` copies of the last offset
(so the last `k` offset deltas are all zero).  The hypothesis that the
offsets sequence is non-empty holds for every builder reachable from
`with_capacity` (it starts as `[0]` and operations only append). -/
theorem C6_extend_constant_frame (b : Binary) (k : Nat) (h : b.offsets.offs ≠ []) :
    (b.extend_constant k).len = b.len + k ∧
    (b.extend_constant k).values = b.values ∧
    (b.extend_constant k).offsets.offs =
      b.offsets.offs ++ List.replicate k b.offsets.last := by
  refine ⟨?_, rfl, rfl⟩
  show (b.offsets.offs ++ List.replicate k b.offsets.last).length - 1 =
    (b.offsets.offs.length - 1) + k
  have hpos : 0 < b.offsets.offs.length := List.length_pos.mpr h
  rw [List.length_append, List.length_replicate]
  omega

/-- Witness for C6 at a fresh builder with offset bound 10, capacity hint 2,
extending by 3. -/
theorem C6_extend_constant_frame_witness :
    ((Binary.with_capacity 10 2).extend_constant 3).len =
        (Binary.with_capacity 10 2).len + 3 ∧
    ((Binary.with_capacity 10 2).extend_constant 3).values =
        (Binary.with_capacity 10 2).values ∧
    ((Binary.with_capacity 10 2).extend_constant 3).offsets.offs =
      (Binary.with_capacity 10 2).offsets.offs ++
        List.replicate 3 (Binary.with_capacity 10 2).offsets.last :=
  C6_extend_constant_frame (Binary.with_capacity 10 2) 3 (by decide)

/-- Raw buffer framing the values "ab", "", "xyz" as `2,"ab",0,"",3,"xyz"`
with 4-byte little-endian length prefixes. -/
def c7_buf : List Nat := [2, 0, 0, 0, 97, 98, 0, 0, 0, 0, 3, 0, 0, 0, 120, 121, 122]

/-- Cursor states at the four observation points of the C7 scenario of the
spec. -/
def c7_it0 : BinaryIter := BinaryIter.new c7_buf 3

/-- Cursor state after yielding "ab". -/
def c7_it1 : BinaryIter := ⟨[0, 0, 0, 0, 3, 0, 0, 0, 120, 121, 122], 2⟩

/-- Cursor state after yielding "". -/
def c7_it2 : BinaryIter := ⟨[3, 0, 0, 0, 120, 121, 122], 1⟩

/-- Cursor state after yielding "xyz". -/
def c7_it3 : BinaryIter := ⟨[], 0⟩

/-- C7: over the buffer framing ["ab", "", "xyz"] with `max_num_values = 3`,
successive `next` calls yield exactly "ab" (bytes 97,98), "" (empty), "xyz"
(bytes 120,121,122), then end-of-sequence; the remaining upper bound
(`len_when_not_nullable`) reads 3, 2, 1, 0 at the four observation points;
and at every point the size hint is `(0, some remaining)`. -/
theorem C7_cursor_exactness :
    c7_it0.next = NextRes.yield [97, 98] c7_it1 ∧
    c7_it1.next = NextRes.yield [] c7_it2 ∧
    c7_it2.next = NextRes.yield [120, 121, 122] c7_it3 ∧
    c7_it3.next = NextRes.done ∧
    c7_it0.len_when_not_nullable = 3 ∧
    c7_it1.len_when_not_nullable = 2 ∧
    c7_it2.len_when_not_nullable = 1 ∧
    c7_it3.len_when_not_nullable = 0 ∧
    c7_it0.size_hint = (0, some 3) ∧
    c7_it1.size_hint = (0, some 2) ∧
    c7_it2.size_hint = (0, some 1) ∧
    c7_it3.size_hint = (0, some 0) := by
  decide

/-- C8: `with_capacity capacity` pre-sizes the offsets sequence for
`capacity` entries and the values buffer at `min(capacity, 100) * 24` bytes,
so the initial values allocation is capped at `100 * 24 = 2400` bytes even
when the capacity hint exceeds 100. -/
theorem C8_constructor_presizing (maxOff c : Nat) :
    (Binary.with_capacity maxOff c).offsets.capacity = c ∧
    (Binary.with_capacity maxOff c).values.cap = min c 100 * 24 ∧
    (Binary.with_capacity maxOff c).values.cap ≤ 100 * 24 := by
  refine ⟨rfl, rfl, ?_⟩
  show min c 100 * 24 ≤ 100 * 24
  exact Nat.mul_le_mul_right 24 (Nat.min_le_right c 100)

/-- C9: the three invariant violations fail loudly as panics (modelled as
`NextRes.panik` / `none`), not as recoverable error values: (1) a `next` call
with zero remaining count but a non-empty buffer fails the
`assert!(values.is_empty())`; (2) `freeze` is `unimplemented!()`; (3)
`extend_constant_value` with a non-empty value fails the
`assert_eq!(value.len(), 0)`, while with the empty value it succeeds and
behaves exactly as `extend_constant`. -/
theorem C9_invariant_violations_fail_loudly :
    (∀ (buf : List Nat) (n : Nat), n = 0 → buf ≠ [] →
      BinaryIter.next ⟨buf, n⟩ = NextRes.panik) ∧
    (∀ b : Binary, b.freeze = none) ∧
    (∀ (b : Binary) (k : Nat) (v : List Nat), v ≠ [] →
      b.extend_constant_value k v = none) ∧
    (∀ (b : Binary) (k : Nat), b.extend_constant_value k [] =
      some (b.extend_constant k)) := by
  refine ⟨?_, fun b => rfl, ?_, fun b k => rfl⟩
  · intro buf n hn hb
    subst hn
    have hemp : buf.isEmpty = false := by
      cases buf with
      | nil => exact absurd rfl hb
      | cons a l => rfl
    simp [BinaryIter.next, hemp]
  · intro b k v hv
    have hlen : ¬(v.length = 0) := by
      cases v with
      | nil => exact absurd rfl hv
      | cons a l => simp
    simp [Binary.extend_constant_value, hlen]

/-- Witness for C9 at concrete inputs: remaining count 0 with one unconsumed
byte; `freeze` on a fresh builder; `extend_constant_value` with the non-empty
value `[7]` and with the empty value. -/
theorem C9_invariant_violations_fail_loudly_witness :
    BinaryIter.next ⟨[1], 0⟩ = NextRes.panik ∧
    Binary.freeze (Binary.with_capacity 10 1) = none ∧
    Binary.extend_constant_value (Binary.with_capacity 10 1) 2 [7] = none ∧
    Binary.extend_constant_value (Binary.with_capacity 10 1) 2 [] =
      some ((Binary.with_capacity 10 1).extend_constant 2) :=
  ⟨C9_invariant_violations_fail_loudly.1 [1] 0 rfl (by decide),
   C9_invariant_violations_fail_loudly.2.1 (Binary.with_capacity 10 1),
   C9_invariant_violations_fail_loudly.2.2.1 (Binary.with_capacity 10 1) 2 [7] (by decide),
   C9_invariant_violations_fail_loudly.2.2.2 (Binary.with_capacity 10 1) 2⟩

/-- C10: every mutating builder operation that completes without panicking
preserves all previously recorded data — the old values buffer is a prefix of
the new one and the old offsets sequence is a prefix of the new one;
`push_null` is definitionally `push` of the empty slice,
`extend_null_constant` is definitionally `extend_constant`,
`extend_constant_value` with the empty value is `extend_constant`, and
`reserve` changes no observable state (length, offsets contents, values
contents). -/
theorem C10_append_only_prefix :
    (∀ (b : Binary) (op : Op) (b' : Binary), applyOp b op = some b' →
      b.values.data <+: b'.values.data ∧ b.offsets.offs <+: b'.offsets.offs) ∧
    (∀ b : Binary, b.push_null = b.push []) ∧
    (∀ (b : Binary) (k : Nat), b.extend_null_constant k = b.extend_constant k) ∧
    (∀ (b : Binary) (k : Nat), b.extend_constant_value k [] =
      some (b.extend_constant k)) ∧
    (∀ (b : Binary) (k : Nat), (b.reserve k).len = b.len ∧
      (b.reserve k).offsets.offs = b.offsets.offs ∧
      (b.reserve k).values.data = b.values.data) := by
  refine ⟨?_, fun b => rfl, fun b k => rfl, fun b k => rfl,
    fun b k => ⟨rfl, rfl, rfl⟩⟩
  intro b op b' h
  obtain ⟨ho, hd, _, _⟩ := applyOp_shape b b' op h
  exact ⟨⟨(opValues op).flatten, hd.symm⟩,
    ⟨cumOffsets b.offsets.last (opValues op), ho.symm⟩⟩

/-- Fresh builder for the C10 witness. -/
def c10_b0 : Binary := Binary.with_capacity 1000 4

/-- Builder state after pushing `[1, 2]` into `c10_b0`. -/
def c10_b1 : Binary := ⟨⟨[0, 2], 4, 1000⟩, ⟨[1, 2], 96⟩⟩

/-- Witness for C10 at the concrete operation `push [1, 2]` on a fresh
builder. -/
theorem C10_append_only_prefix_witness :
    c10_b0.values.data <+: c10_b1.values.data ∧
    c10_b0.offsets.offs <+: c10_b1.offsets.offs :=
  C10_append_only_prefix.1 c10_b0 (Op.push [1, 2]) c10_b1 (by decide)
